import Mathlib

/-!
Verification development for the traceroute-output extractor in
`src/amazing_trace.py`.

Python strings are modelled as `List Char`.  The four regular expressions of
the source are modelled by explicit deterministic scanners; for each pattern
the scanner reproduces the leftmost-match, greedy-with-backtracking semantics
of Python's `re` module (for these particular patterns no backtracking
alternative can ever succeed after the greedy attempt fails, so a
maximal-munch scan is exact).  Character classes are modelled over ASCII:
the digit class is the decimal digits and the whitespace class is the ASCII
whitespace characters.  Python floats produced by `float(...)` on the matched
numeric literals are idealized as exact rationals; the claims under study only
depend on their count, order and sign.
-/

namespace AmazingTrace

/-- Whitespace characters: the ASCII content of the regex class and of
`str.strip`. -/
def isSpace (c : Char) : Bool :=
  c = ' ' || c = '\t' || c = '\n' || c = '\r' || c = '\x0b' || c = '\x0c'

/-- Decimal digit characters (the regex digit class). -/
def isDigit (c : Char) : Bool :=
  '0' ≤ c && c ≤ '9'

/-- Python `str.split` on the newline character: every newline separates, and
empty pieces are kept (`"".split` gives one empty piece). -/
def splitOnNl : List Char → List (List Char)
  | [] => [[]]
  | c :: cs =>
    if c = '\n' then [] :: splitOnNl cs
    else
      match splitOnNl cs with
      | [] => [[c]]
      | l :: ls => (c :: l) :: ls

/-- Python `str.strip`: remove whitespace from both ends. -/
def strip (s : List Char) : List Char :=
  ((s.dropWhile isSpace).reverse.dropWhile isSpace).reverse

/-- Numeric value of a digit string (Python `int` applied to the digits
captured by the hop-number group). -/
def digitsToNat (s : List Char) : Nat :=
  s.foldl (fun n c => 10 * n + (c.toNat - ('0').toNat)) 0

/-- Matching of the source's hop line pattern (line 76: an anchored match of
digits, then whitespace, then the remainder) against a newline-free line:
a nonempty digit run, then a nonempty whitespace run, then the payload.
Returns the digit run (group 1) and the payload (group 2).  Lines handed to
this function come from the newline split, so they contain no newline. -/
def hopMatch (l : List Char) : Option (List Char × List Char) :=
  let ds := l.takeWhile isDigit
  if ds = [] then none
  else
    let r1 := l.dropWhile isDigit
    if r1.takeWhile isSpace = [] then none
    else some (ds, r1.dropWhile isSpace)

/-- One timing token of the time pattern (line 80): the timeout marker, or a
numeric reading carrying its literal text. -/
inductive TimeTok where
  | timeout : TimeTok
  | value : List Char → TimeTok
deriving DecidableEq, Repr

/-- Matching of the numeric-literal part of the time pattern at the start of
`s`: a nonempty digit run, optionally followed by a dot and a further nonempty
digit run (the optional fraction group is skipped when no digit follows the
dot, exactly as the regex engine falls back to the empty alternative).
Returns the literal (group 2 of the time pattern) and the unconsumed rest. -/
def numMatch (s : List Char) : Option (List Char × List Char) :=
  let ds := s.takeWhile isDigit
  if ds = [] then none
  else
    match s.dropWhile isDigit with
    | '.' :: t =>
      let fs := t.takeWhile isDigit
      if fs = [] then some (ds, '.' :: t)
      else some (ds ++ '.' :: fs, t.dropWhile isDigit)
    | r => some (ds, r)

/-- Matching of the unit part of the time pattern right after the numeric
literal: optional whitespace, the literal letters of the milliseconds unit,
then an optional annotation (optional whitespace, an exclamation mark and a
nonempty run of non-whitespace).  When the annotation is absent or incomplete
the match ends right after the unit, as with the regex's optional group.
Returns the rest of the input after the full match. -/
def msSuffix (s : List Char) : Option (List Char) :=
  match s.dropWhile isSpace with
  | 'm' :: 's' :: s4 =>
    match s4.dropWhile isSpace with
    | '!' :: t =>
      if t.takeWhile (fun c => !isSpace c) = [] then some s4
      else some (t.dropWhile (fun c => !isSpace c))
    | _ => some s4
  | _ => none

/-- Matching of the second alternative of the time pattern at the start of
`s`: numeric literal, then the unit part. -/
def matchNum (s : List Char) : Option (List Char × List Char) :=
  match numMatch s with
  | none => none
  | some (n, s2) =>
    match msSuffix s2 with
    | none => none
    | some r => some (n, r)

/-- One step of `finditer` over the time pattern: at each position the
asterisk alternative is tried first, then the numeric alternative; on failure
the scan advances one character, on success it resumes after the match.  The
fuel argument bounds the recursion; `findTimeMatches` supplies the input
length, which is enough because every successful match consumes at least one
character (`matchNum_consumes` below). -/
def findTimeAux : Nat → List Char → List TimeTok
  | 0, _ => []
  | _ + 1, [] => []
  | fuel + 1, c :: cs =>
    if c = '*' then TimeTok.timeout :: findTimeAux fuel cs
    else
      match matchNum (c :: cs) with
      | some (n, rest) => TimeTok.value n :: findTimeAux fuel rest
      | none => findTimeAux fuel cs

/-- All matches of the time pattern in `s`, in left-to-right order
(`time_pattern.finditer` in the source, lines 106-114). -/
def findTimeMatches (s : List Char) : List TimeTok :=
  findTimeAux s.length s

/-- Exact rational value of a matched numeric literal (idealization of
Python `float` on the digit-dot-digit literals produced by `numMatch`). -/
def ratOfNumStr (s : List Char) : ℚ :=
  let ds := s.takeWhile isDigit
  match s.dropWhile isDigit with
  | '.' :: t => (digitsToNat ds : ℚ) + (digitsToNat t : ℚ) / (10 : ℚ) ^ t.length
  | _ => (digitsToNat ds : ℚ)

/-- The slot contributed to the latency list by one timing token (source
lines 108-114): a timeout contributes an absent slot, a numeric reading its
value. -/
def timeSlot : TimeTok → Option ℚ
  | TimeTok.timeout => none
  | TimeTok.value n => some (ratOfNumStr n)

/-- Matching of the dotted-quad pattern (lines 83-85: four nonempty digit
runs separated by literal dots) at the start of `s`.  Each digit run is
maximal: shortening a run leaves a digit where a dot or the closing context is
expected, so the regex engine's backtracking can never succeed where the
greedy scan fails.  Returns the matched text and the unconsumed rest. -/
def matchQuad (s : List Char) : Option (List Char × List Char) :=
  let d1 := s.takeWhile isDigit
  if d1 = [] then none
  else
    match s.dropWhile isDigit with
    | '.' :: t1 =>
      let d2 := t1.takeWhile isDigit
      if d2 = [] then none
      else
        match t1.dropWhile isDigit with
        | '.' :: t2 =>
          let d3 := t2.takeWhile isDigit
          if d3 = [] then none
          else
            match t2.dropWhile isDigit with
            | '.' :: t3 =>
              let d4 := t3.takeWhile isDigit
              if d4 = [] then none
              else some (d1 ++ '.' :: (d2 ++ '.' :: (d3 ++ '.' :: d4)), t3.dropWhile isDigit)
            | _ => none
        | _ => none
    | _ => none

/-- `ip_pattern.search` (line 85): leftmost match of a dotted quad, scanning
position by position. -/
def ipSearch : List Char → Option (List Char)
  | [] => none
  | c :: cs =>
    match matchQuad (c :: cs) with
    | some (q, _) => some q
    | none => ipSearch cs

/-- Characters allowed in the leading token of the host pattern (line 83):
anything but whitespace and the opening parenthesis. -/
def isTokChar (c : Char) : Bool :=
  !isSpace c && c ≠ '('

/-- Matching of the host pattern (line 83) at the start of `s`: a nonempty
token of `isTokChar` characters, optional whitespace, an opening parenthesis,
a dotted quad and a closing parenthesis.  The token and whitespace runs are
maximal; as for the quad, no backtracking alternative can succeed when the
greedy scan fails.  Returns groups 1 (token) and 2 (quad). -/
def hostIpAt (s : List Char) : Option (List Char × List Char) :=
  let tok := s.takeWhile isTokChar
  if tok = [] then none
  else
    match (s.dropWhile isTokChar).dropWhile isSpace with
    | '(' :: t =>
      match matchQuad t with
      | some (q, rest) =>
        match rest with
        | ')' :: _ => some (tok, q)
        | _ => none
      | none => none
    | _ => none

/-- `host_ip_pattern.search` (lines 83, 117): leftmost match of the host
pattern, scanning position by position. -/
def hostIpSearch : List Char → Option (List Char × List Char)
  | [] => none
  | c :: cs =>
    match hostIpAt (c :: cs) with
    | some r => some r
    | none => hostIpSearch cs

/-- One hop record (the dictionary built at lines 138-143). -/
structure HopRecord where
  hop : Int
  ip : Option (List Char)
  hostname : Option (List Char)
  rtt : List (Option ℚ)
deriving DecidableEq, Repr

/-- The two-tier responder-identity extraction (lines 116-134): first the
host pattern; when its leading token equals the parenthesized address the
hostname is dropped; otherwise the bare-address fallback; otherwise nothing.
Returns the pair of the address and hostname fields. -/
def identityOf (rest : List Char) : Option (List Char) × Option (List Char) :=
  match hostIpSearch rest with
  | some (h, q) => (some q, if h = q then none else some h)
  | none =>
    match ipSearch rest with
    | some q => (some q, none)
    | none => (none, none)

/-- The record built from one matched line (loop body, lines 99-146): the hop
number from group 1, identity fields from the payload, and one latency slot
per timing match. -/
def recOf (ds rest : List Char) : HopRecord :=
  { hop := (digitsToNat ds : Int)
    ip := (identityOf rest).1
    hostname := (identityOf rest).2
    rtt := (findTimeMatches rest).map timeSlot }

/-- Processing of one physical line (lines 87-146): strip, skip when empty,
skip when the hop pattern does not match, otherwise produce one record. -/
def parseLine (line : List Char) : Option HopRecord :=
  let l := strip line
  if l = [] then none
  else
    match hopMatch l with
    | none => none
    | some (ds, rest) => some (recOf ds rest)

/-- `parse_traceroute` (lines 38-148): split on newlines and emit one record
per line that survives `parseLine`, preserving input order. -/
def parse_traceroute (t : List Char) : List HopRecord :=
  (splitOnNl t).filterMap parseLine

/-- The hop-number-prefix test used by the counting claims: a nonempty digit
run at the start, immediately followed by at least one whitespace character. -/
def hopLead (l : List Char) : Bool :=
  decide (l.takeWhile isDigit ≠ []) &&
    decide ((l.dropWhile isDigit).takeWhile isSpace ≠ [])

/-- Shape of a string accepted by the exact-rational reading: a nonempty
digit run, optionally followed by a dot and a nonempty digit run.  Every such
string is also accepted by Python `float`, which accepts a superset. -/
def validNumStr (s : List Char) : Bool :=
  !(s.takeWhile isDigit).isEmpty &&
    (match s.dropWhile isDigit with
     | [] => true
     | '.' :: t => !t.isEmpty && t.all isDigit
     | _ => false)

/-- Exception-aware model of Python `int` on the captured hop digits: raises
(errors) unless the text is a nonempty digit string.  Python `int` accepts a
superset of these strings, so succeeding here implies Python succeeds. -/
def digitsToIntE (s : List Char) : Except String Int :=
  if !s.isEmpty && s.all isDigit then Except.ok (digitsToNat s : Int)
  else Except.error "invalid integer literal"

/-- Exception-aware model of Python `float` on a captured numeric literal:
raises (errors) unless the text has the digit-dot-digit shape. -/
def ratE (s : List Char) : Except String ℚ :=
  if validNumStr s then Except.ok (ratOfNumStr s) else Except.error "invalid float literal"

/-- Exception-aware build of the latency list: any conversion error
propagates, as an uncaught Python exception would. -/
def rttsE : List TimeTok → Except String (List (Option ℚ))
  | [] => Except.ok []
  | TimeTok.timeout :: ts =>
    match rttsE ts with
    | Except.ok rs => Except.ok (none :: rs)
    | Except.error e => Except.error e
  | TimeTok.value n :: ts =>
    match ratE n with
    | Except.error e => Except.error e
    | Except.ok q =>
      match rttsE ts with
      | Except.error e => Except.error e
      | Except.ok rs => Except.ok (some q :: rs)

/-- Exception-aware model of the loop body: identical to `parseLine` except
that the two conversions that could raise in Python are fallible. -/
def parseLineE (line : List Char) : Except String (Option HopRecord) :=
  let l := strip line
  if l = [] then Except.ok none
  else
    match hopMatch l with
    | none => Except.ok none
    | some (ds, rest) =>
      match digitsToIntE ds with
      | Except.error e => Except.error e
      | Except.ok hop =>
        match rttsE (findTimeMatches rest) with
        | Except.error e => Except.error e
        | Except.ok rtts =>
          Except.ok (some { hop := hop, ip := (identityOf rest).1,
                            hostname := (identityOf rest).2, rtt := rtts })

/-- Exception-aware processing of the line list. -/
def parseLinesE : List (List Char) → Except String (List HopRecord)
  | [] => Except.ok []
  | l :: ls =>
    match parseLineE l with
    | Except.error e => Except.error e
    | Except.ok r =>
      match parseLinesE ls with
      | Except.error e => Except.error e
      | Except.ok rs =>
        Except.ok (match r with | some x => x :: rs | none => rs)

/-- Exception-aware model of the whole parser. -/
def parse_tracerouteE (t : List Char) : Except String (List HopRecord) :=
  parseLinesE (splitOnNl t)

/-- Outcome of one run of the external probe process under
`subprocess.run(..., capture_output=True, check=True)` (lines 25-36): exit
status zero with the captured standard output, or a `CalledProcessError`
carrying the captured standard output and standard error. -/
inductive ProcResult where
  | success : List Char → ProcResult
  | failure : List Char → List Char → ProcResult

/-- `execute_traceroute` (lines 25-36): on success the standard output; on a
non-zero exit the captured standard output, a newline, and the captured
standard error. -/
def execute_traceroute : ProcResult → List Char
  | ProcResult.success out => out
  | ProcResult.failure out err => out ++ '\n' :: err

/-! Supporting lemmas about the scanners. -/

theorem length_filterMap_countP {α β : Type} (f : α → Option β) (l : List α) :
    (l.filterMap f).length = l.countP (fun a => (f a).isSome) := by
  induction l with
  | nil => rfl
  | cons a l ih =>
    cases h : f a <;> simp [List.filterMap_cons, List.countP_cons, h, ih]

theorem takeWhile_all (p : Char → Bool) (l : List Char) :
    (l.takeWhile p).all p = true := by
  induction l with
  | nil => rfl
  | cons a l ih =>
    by_cases h : p a <;> simp [List.takeWhile_cons, h, ih]

theorem takeWhile_eq_self_of_all {p : Char → Bool} {l : List Char}
    (h : l.all p = true) : l.takeWhile p = l := by
  induction l with
  | nil => rfl
  | cons a l ih =>
    simp only [List.all_cons, Bool.and_eq_true] at h
    simp [List.takeWhile_cons, h.1, ih h.2]

theorem dropWhile_eq_nil_of_all {p : Char → Bool} {l : List Char}
    (h : l.all p = true) : l.dropWhile p = [] := by
  induction l with
  | nil => rfl
  | cons a l ih =>
    simp only [List.all_cons, Bool.and_eq_true] at h
    simp [List.dropWhile_cons, h.1, ih h.2]

theorem takeWhile_append_of_all {p : Char → Bool} :
    ∀ (a : List Char) (b : Char) (c : List Char), a.all p = true → p b = false →
      (a ++ b :: c).takeWhile p = a ∧ (a ++ b :: c).dropWhile p = b :: c := by
  intro a
  induction a with
  | nil =>
    intro b c _ hb
    simp [List.takeWhile_cons, List.dropWhile_cons, hb]
  | cons x xs ih =>
    intro b c ha hb
    simp only [List.all_cons, Bool.and_eq_true] at ha
    have h2 := ih b c ha.2 hb
    simp [List.cons_append, List.takeWhile_cons, List.dropWhile_cons, ha.1, h2.1, h2.2]

theorem length_dropWhile_le (p : Char → Bool) (l : List Char) :
    (l.dropWhile p).length ≤ l.length := by
  induction l with
  | nil => simp
  | cons a l ih =>
    by_cases h : p a
    · rw [List.dropWhile_cons, if_pos h]
      simp only [List.length_cons]
      omega
    · rw [List.dropWhile_cons, if_neg h]

theorem length_take_drop (p : Char → Bool) (l : List Char) :
    (l.takeWhile p).length + (l.dropWhile p).length = l.length := by
  rw [← List.length_append, List.takeWhile_append_dropWhile]

theorem numMatch_consumes {s n s2 : List Char} (h : numMatch s = some (n, s2)) :
    s2.length < s.length := by
  have hlen := length_take_drop isDigit s
  simp only [numMatch] at h
  by_cases h1 : s.takeWhile isDigit = []
  · rw [if_pos h1] at h; exact Option.noConfusion h
  · rw [if_neg h1] at h
    have hpos : 0 < (s.takeWhile isDigit).length := List.length_pos.mpr h1
    split at h
    next t heq =>
      have ht : t.length + 1 = (s.dropWhile isDigit).length := by rw [heq]; rfl
      by_cases h2 : t.takeWhile isDigit = []
      · rw [if_pos h2] at h
        have := (Prod.mk.injEq _ _ _ _).mp (Option.some.inj h)
        have h3 : s2 = '.' :: t := this.2.symm
        have : s2.length = t.length + 1 := by rw [h3]; rfl
        omega
      · rw [if_neg h2] at h
        have := (Prod.mk.injEq _ _ _ _).mp (Option.some.inj h)
        have h3 : s2 = t.dropWhile isDigit := this.2.symm
        have h4 := length_dropWhile_le isDigit t
        have : s2.length ≤ t.length := by rw [h3]; exact h4
        omega
    next heq2 =>
      have := (Prod.mk.injEq _ _ _ _).mp (Option.some.inj h)
      have h3 : s2 = s.dropWhile isDigit := this.2.symm
      have : s2.length = (s.dropWhile isDigit).length := by rw [h3]
      omega

theorem msSuffix_le {s r : List Char} (h : msSuffix s = some r) :
    r.length ≤ s.length := by
  simp only [msSuffix] at h
  split at h
  next s4 heq =>
    have h1 : s4.length + 2 ≤ s.length := by
      have := length_dropWhile_le isSpace s
      have h2 : (s.dropWhile isSpace).length = s4.length + 2 := by rw [heq]; rfl
      omega
    split at h
    next t heq2 =>
      have h3 : t.length + 1 ≤ s4.length := by
        have := length_dropWhile_le isSpace s4
        have h4 : (s4.dropWhile isSpace).length = t.length + 1 := by rw [heq2]; rfl
        omega
      by_cases h5 : t.takeWhile (fun c => !isSpace c) = []
      · rw [if_pos h5] at h
        have h6 : r = s4 := (Option.some.inj h).symm
        have : r.length = s4.length := by rw [h6]
        omega
      · rw [if_neg h5] at h
        have h6 : r = t.dropWhile (fun c => !isSpace c) := (Option.some.inj h).symm
        have h7 := length_dropWhile_le (fun c => !isSpace c) t
        have : r.length ≤ t.length := by rw [h6]; exact h7
        omega
    next =>
      have h6 : r = s4 := (Option.some.inj h).symm
      have : r.length = s4.length := by rw [h6]
      omega
  next => exact Option.noConfusion h

theorem matchNum_consumes {s n r : List Char} (h : matchNum s = some (n, r)) :
    r.length < s.length := by
  simp only [matchNum] at h
  split at h
  next => exact Option.noConfusion h
  next n2 s2 hn =>
    split at h
    next => exact Option.noConfusion h
    next r2 hm =>
      have := (Prod.mk.injEq _ _ _ _).mp (Option.some.inj h)
      have hr : r = r2 := this.2.symm
      have h1 := numMatch_consumes hn
      have h2 := msSuffix_le hm
      rw [hr]
      omega

theorem findTimeAux_nil (fuel : Nat) : findTimeAux fuel [] = [] := by
  cases fuel <;> rfl

/-- Fuel adequacy: any fuel at least the input length gives the same scan, so
`findTimeMatches` reports every match of the unbounded left-to-right scan
(no truncation). -/
theorem findTimeAux_congr :
    ∀ (f g : Nat) (s : List Char), s.length ≤ f → s.length ≤ g →
      findTimeAux f s = findTimeAux g s := by
  intro f
  induction f using Nat.strong_induction_on with
  | _ f ih =>
    intro g s hf hg
    cases s with
    | nil => rw [findTimeAux_nil, findTimeAux_nil]
    | cons c cs =>
      simp only [List.length_cons] at hf hg
      cases f with
      | zero => omega
      | succ f1 =>
        cases g with
        | zero => omega
        | succ g1 =>
          simp only [findTimeAux]
          by_cases hc : c = '*'
          · rw [if_pos hc, if_pos hc, ih f1 (by omega) g1 cs (by omega) (by omega)]
          · rw [if_neg hc, if_neg hc]
            cases hm : matchNum (c :: cs) with
            | none => exact ih f1 (by omega) g1 cs (by omega) (by omega)
            | some pr =>
              obtain ⟨n, rest⟩ := pr
              have hlen := matchNum_consumes hm
              simp only [List.length_cons] at hlen
              exact congrArg (fun x => TimeTok.value n :: x)
                (ih f1 (by omega) g1 rest (by omega) (by omega))

theorem validNumStr_digits {ds : List Char} (hne : ds ≠ [])
    (hall : ds.all isDigit = true) : validNumStr ds = true := by
  simp only [validNumStr]
  rw [takeWhile_eq_self_of_all hall, dropWhile_eq_nil_of_all hall]
  cases ds with
  | nil => exact absurd rfl hne
  | cons a as => rfl

theorem validNumStr_digits_frac {ds fs : List Char} (h1 : ds ≠ [])
    (h2 : ds.all isDigit = true) (h3 : fs ≠ []) (h4 : fs.all isDigit = true) :
    validNumStr (ds ++ '.' :: fs) = true := by
  have hdot : isDigit ('.') = false := by decide
  obtain ⟨htw, hdw⟩ := takeWhile_append_of_all ds '.' fs h2 hdot
  simp only [validNumStr, htw, hdw]
  cases ds with
  | nil => exact absurd rfl h1
  | cons a as =>
    cases fs with
    | nil => exact absurd rfl h3
    | cons b bs => simp [h4]

theorem numMatch_valid {s n s2 : List Char} (h : numMatch s = some (n, s2)) :
    validNumStr n = true := by
  simp only [numMatch] at h
  by_cases h1 : s.takeWhile isDigit = []
  · rw [if_pos h1] at h; exact Option.noConfusion h
  · rw [if_neg h1] at h
    have hall := takeWhile_all isDigit s
    split at h
    next t heq =>
      by_cases h2 : t.takeWhile isDigit = []
      · rw [if_pos h2] at h
        have := (Prod.mk.injEq _ _ _ _).mp (Option.some.inj h)
        rw [← this.1]
        exact validNumStr_digits h1 hall
      · rw [if_neg h2] at h
        have := (Prod.mk.injEq _ _ _ _).mp (Option.some.inj h)
        rw [← this.1]
        exact validNumStr_digits_frac h1 hall h2 (takeWhile_all isDigit t)
    next heq2 =>
      have := (Prod.mk.injEq _ _ _ _).mp (Option.some.inj h)
      rw [← this.1]
      exact validNumStr_digits h1 hall

theorem matchNum_valid {s n r : List Char} (h : matchNum s = some (n, r)) :
    validNumStr n = true := by
  simp only [matchNum] at h
  split at h
  next => exact Option.noConfusion h
  next n2 s2 hn =>
    split at h
    next => exact Option.noConfusion h
    next r2 hm =>
      have := (Prod.mk.injEq _ _ _ _).mp (Option.some.inj h)
      rw [← this.1]
      exact numMatch_valid hn

theorem findTimeAux_valid :
    ∀ (fuel : Nat) (s n : List Char),
      TimeTok.value n ∈ findTimeAux fuel s → validNumStr n = true := by
  intro fuel
  induction fuel with
  | zero =>
    intro s n h
    rw [findTimeAux] at h
    simp at h
  | succ f ih =>
    intro s n h
    cases s with
    | nil =>
      rw [findTimeAux_nil] at h
      simp at h
    | cons c cs =>
      simp only [findTimeAux] at h
      by_cases hc : c = '*'
      · rw [if_pos hc] at h
        rcases List.mem_cons.mp h with h1 | h2
        · exact TimeTok.noConfusion h1
        · exact ih cs n h2
      · rw [if_neg hc] at h
        cases hm : matchNum (c :: cs) with
        | none =>
          rw [hm] at h
          exact ih cs n h
        | some pr =>
          obtain ⟨m, rest⟩ := pr
          rw [hm] at h
          rcases List.mem_cons.mp h with h1 | h2
          · have hnm : n = m := by injection h1
            rw [hnm]
            exact matchNum_valid hm
          · exact ih rest n h2

theorem findTimeMatches_valid (s n : List Char)
    (h : TimeTok.value n ∈ findTimeMatches s) : validNumStr n = true :=
  findTimeAux_valid s.length s n h

theorem hopMatch_nil : hopMatch [] = none := rfl

theorem hopMatch_ds {l ds rest : List Char} (h : hopMatch l = some (ds, rest)) :
    ds = l.takeWhile isDigit ∧ ds ≠ [] ∧ ds.all isDigit = true ∧
      rest = (l.dropWhile isDigit).dropWhile isSpace := by
  simp only [hopMatch] at h
  by_cases h1 : l.takeWhile isDigit = []
  · rw [if_pos h1] at h; exact Option.noConfusion h
  · rw [if_neg h1] at h
    by_cases h2 : (l.dropWhile isDigit).takeWhile isSpace = []
    · rw [if_pos h2] at h; exact Option.noConfusion h
    · rw [if_neg h2] at h
      have := (Prod.mk.injEq _ _ _ _).mp (Option.some.inj h)
      refine ⟨this.1.symm, ?_, ?_, this.2.symm⟩
      · rw [this.1] at h1; exact h1
      · rw [← this.1]; exact takeWhile_all isDigit l

theorem hopMatch_isSome (l : List Char) : (hopMatch l).isSome = hopLead l := by
  simp only [hopMatch, hopLead]
  by_cases h1 : l.takeWhile isDigit = []
  · simp [h1]
  · by_cases h2 : (l.dropWhile isDigit).takeWhile isSpace = []
    · simp [h1, h2]
    · simp [h1, h2]

theorem parseLine_isSome (l : List Char) :
    (parseLine l).isSome = hopLead (strip l) := by
  simp only [parseLine]
  by_cases h0 : strip l = []
  · rw [if_pos h0, h0]
    rfl
  · rw [if_neg h0, ← hopMatch_isSome]
    cases hopMatch (strip l) with
    | none => rfl
    | some pr => rfl

/-- Characterization of membership in the parse result: a record is returned
exactly when some input line strips to a hop-pattern match producing it. -/
theorem mem_parse_iff {t : List Char} {r : HopRecord} :
    r ∈ parse_traceroute t ↔
      ∃ l, l ∈ splitOnNl t ∧
        ∃ ds rest, hopMatch (strip l) = some (ds, rest) ∧ r = recOf ds rest := by
  rw [parse_traceroute, List.mem_filterMap]
  constructor
  · rintro ⟨l, hl, hp⟩
    refine ⟨l, hl, ?_⟩
    simp only [parseLine] at hp
    by_cases h0 : strip l = []
    · rw [if_pos h0] at hp; exact Option.noConfusion hp
    · rw [if_neg h0] at hp
      cases hm : hopMatch (strip l) with
      | none => rw [hm] at hp; exact Option.noConfusion hp
      | some pr =>
        obtain ⟨ds, rest⟩ := pr
        rw [hm] at hp
        exact ⟨ds, rest, rfl, (Option.some.inj hp).symm⟩
  · rintro ⟨l, hl, ds, rest, hm, hr⟩
    refine ⟨l, hl, ?_⟩
    simp only [parseLine]
    have h0 : strip l ≠ [] := by
      intro h
      rw [h, hopMatch_nil] at hm
      exact Option.noConfusion hm
    rw [if_neg h0, hm, hr]

theorem ratOfNumStr_nonneg (s : List Char) : 0 ≤ ratOfNumStr s := by
  simp only [ratOfNumStr]
  split
  · positivity
  · positivity

theorem digitsToIntE_ok {ds : List Char} (hne : ds ≠ [])
    (hall : ds.all isDigit = true) :
    digitsToIntE ds = Except.ok (digitsToNat ds : Int) := by
  simp only [digitsToIntE]
  rw [if_pos]
  cases ds with
  | nil => exact absurd rfl hne
  | cons a as => simp [hall]

theorem ratE_ok {n : List Char} (h : validNumStr n = true) :
    ratE n = Except.ok (ratOfNumStr n) := by
  simp only [ratE]
  rw [if_pos h]

theorem rttsE_ok {ts : List TimeTok}
    (h : ∀ n, TimeTok.value n ∈ ts → validNumStr n = true) :
    rttsE ts = Except.ok (ts.map timeSlot) := by
  induction ts with
  | nil => rfl
  | cons t ts ih =>
    have hts : ∀ n, TimeTok.value n ∈ ts → validNumStr n = true :=
      fun n hn => h n (List.mem_cons_of_mem _ hn)
    cases t with
    | timeout =>
      rw [rttsE, ih hts]
      rfl
    | value n =>
      have hv := h n (List.mem_cons_self _ _)
      rw [rttsE, ratE_ok hv, ih hts]
      rfl

theorem parseLineE_ok (line : List Char) :
    parseLineE line = Except.ok (parseLine line) := by
  simp only [parseLineE, parseLine]
  by_cases h0 : strip line = []
  · rw [if_pos h0, if_pos h0]
  · rw [if_neg h0, if_neg h0]
    cases hm : hopMatch (strip line) with
    | none => rfl
    | some pr =>
      obtain ⟨ds, rest⟩ := pr
      obtain ⟨hds_eq, hne, hall, hrest⟩ := hopMatch_ds hm
      show (match digitsToIntE ds with
            | Except.error e => Except.error e
            | Except.ok hop =>
              match rttsE (findTimeMatches rest) with
              | Except.error e => Except.error e
              | Except.ok rtts =>
                Except.ok (some { hop := hop, ip := (identityOf rest).1,
                                  hostname := (identityOf rest).2, rtt := rtts })) =
          Except.ok (some (recOf ds rest))
      rw [digitsToIntE_ok hne hall,
          rttsE_ok (fun n hn => findTimeMatches_valid rest n hn)]
      rfl

theorem parseLinesE_ok (ls : List (List Char)) :
    parseLinesE ls = Except.ok (ls.filterMap parseLine) := by
  induction ls with
  | nil => rfl
  | cons l ls ih =>
    rw [parseLinesE, parseLineE_ok l, ih]
    cases hp : parseLine l <;> simp [List.filterMap_cons, hp]

theorem matchQuad_shape {s q rest : List Char} (h : matchQuad s = some (q, rest)) :
    ∃ d1 d2 d3 d4 : List Char,
      q = d1 ++ '.' :: (d2 ++ '.' :: (d3 ++ '.' :: d4)) ∧
      (d1 ≠ [] ∧ d1.all isDigit = true) ∧ (d2 ≠ [] ∧ d2.all isDigit = true) ∧
      (d3 ≠ [] ∧ d3.all isDigit = true) ∧ (d4 ≠ [] ∧ d4.all isDigit = true) := by
  simp only [matchQuad] at h
  by_cases h1 : s.takeWhile isDigit = []
  · rw [if_pos h1] at h; exact Option.noConfusion h
  · rw [if_neg h1] at h
    split at h
    next t1 heq1 =>
      by_cases h2 : t1.takeWhile isDigit = []
      · rw [if_pos h2] at h; exact Option.noConfusion h
      · rw [if_neg h2] at h
        split at h
        next t2 heq2 =>
          by_cases h3 : t2.takeWhile isDigit = []
          · rw [if_pos h3] at h; exact Option.noConfusion h
          · rw [if_neg h3] at h
            split at h
            next t3 heq3 =>
              by_cases h4 : t3.takeWhile isDigit = []
              · rw [if_pos h4] at h; exact Option.noConfusion h
              · rw [if_neg h4] at h
                have := (Prod.mk.injEq _ _ _ _).mp (Option.some.inj h)
                refine ⟨s.takeWhile isDigit, t1.takeWhile isDigit,
                        t2.takeWhile isDigit, t3.takeWhile isDigit,
                        this.1.symm, ⟨h1, takeWhile_all isDigit s⟩,
                        ⟨h2, takeWhile_all isDigit t1⟩, ⟨h3, takeWhile_all isDigit t2⟩,
                        ⟨h4, takeWhile_all isDigit t3⟩⟩
            next => exact Option.noConfusion h
        next => exact Option.noConfusion h
    next => exact Option.noConfusion h

theorem ipSearch_shape :
    ∀ (s q : List Char), ipSearch s = some q →
      ∃ s2 rest, matchQuad s2 = some (q, rest) := by
  intro s
  induction s with
  | nil => intro q h; exact Option.noConfusion h
  | cons c cs ih =>
    intro q h
    simp only [ipSearch] at h
    cases hm : matchQuad (c :: cs) with
    | some pr =>
      obtain ⟨q2, r2⟩ := pr
      rw [hm] at h
      have hq : q2 = q := Option.some.inj h
      rw [hq] at hm
      exact ⟨c :: cs, r2, hm⟩
    | none =>
      rw [hm] at h
      exact ih q h

theorem hostIpAt_shape {s hn q : List Char} (h : hostIpAt s = some (hn, q)) :
    ∃ t rest, matchQuad t = some (q, rest) := by
  simp only [hostIpAt] at h
  by_cases h1 : s.takeWhile isTokChar = []
  · rw [if_pos h1] at h; exact Option.noConfusion h
  · rw [if_neg h1] at h
    split at h
    next t heq1 =>
      cases hm : matchQuad t with
      | none => rw [hm] at h; exact Option.noConfusion h
      | some pr =>
        obtain ⟨q2, r2⟩ := pr
        rw [hm] at h
        dsimp only at h
        split at h
        · have := (Prod.mk.injEq _ _ _ _).mp (Option.some.inj h)
          rw [← this.2]
          exact ⟨t, _, hm⟩
        · exact Option.noConfusion h
    next => exact Option.noConfusion h

theorem hostIpSearch_shape :
    ∀ (s hn q : List Char), hostIpSearch s = some (hn, q) →
      ∃ t rest, matchQuad t = some (q, rest) := by
  intro s
  induction s with
  | nil => intro hn q h; exact Option.noConfusion h
  | cons c cs ih =>
    intro hn q h
    simp only [hostIpSearch] at h
    cases hm : hostIpAt (c :: cs) with
    | some pr =>
      obtain ⟨hn2, q2⟩ := pr
      rw [hm] at h
      have := (Prod.mk.injEq _ _ _ _).mp (Option.some.inj h)
      rw [this.1, this.2] at hm
      exact hostIpAt_shape hm
    | none =>
      rw [hm] at h
      exact ih hn q h

/-! Claim theorems. -/

/-- C1: for every input, the number of records returned equals the number of
input lines whose whitespace-trimmed form starts with a nonempty digit run
followed by whitespace (the hop-number-prefix pattern); every such line
yields exactly one record and no other line yields one. -/
theorem parse_record_count (t : List Char) :
    (parse_traceroute t).length = (splitOnNl t).countP (fun l => hopLead (strip l)) := by
  rw [parse_traceroute, length_filterMap_countP]
  have h : (fun a => (parseLine a).isSome) = fun l => hopLead (strip l) :=
    funext parseLine_isSome
  rw [h]

/-- C2: every returned record's latency list has exactly one slot per timing
token found on the originating payload, in left-to-right order: a timeout
token contributes an absent slot and a numeric token contributes its
non-negative value; there is no padding or truncation. -/
theorem rtt_one_slot_per_token (t : List Char) (r : HopRecord)
    (hr : r ∈ parse_traceroute t) :
    ∃ l, l ∈ splitOnNl t ∧ ∃ ds rest, hopMatch (strip l) = some (ds, rest) ∧
      r.rtt = (findTimeMatches rest).map timeSlot ∧
      r.rtt.length = (findTimeMatches rest).length ∧
      ∀ q : ℚ, some q ∈ r.rtt → 0 ≤ q := by
  obtain ⟨l, hl, ds, rest, hm, hrec⟩ := mem_parse_iff.mp hr
  subst hrec
  refine ⟨l, hl, ds, rest, hm, rfl, ?_, ?_⟩
  · simp [recOf]
  · intro q hq
    simp only [recOf, List.mem_map] at hq
    obtain ⟨tok, htok, hts⟩ := hq
    cases tok with
    | timeout => exact Option.noConfusion hts
    | value n =>
      have hv : ratOfNumStr n = q := Option.some.inj hts
      rw [← hv]
      exact ratOfNumStr_nonneg n

theorem rtt_one_slot_per_token_witness :
    (⟨1, none, none, [some 2, none, some 3]⟩ : HopRecord) ∈
        parse_traceroute (("1 a 2 ms * 3 ms").toList) ∧
      (∃ l, l ∈ splitOnNl (("1 a 2 ms * 3 ms").toList) ∧
        ∃ ds rest, hopMatch (strip l) = some (ds, rest) ∧
          (⟨1, none, none, [some 2, none, some 3]⟩ : HopRecord).rtt =
            (findTimeMatches rest).map timeSlot ∧
          (⟨1, none, none, [some 2, none, some 3]⟩ : HopRecord).rtt.length =
            (findTimeMatches rest).length ∧
          ∀ q : ℚ, some q ∈ (⟨1, none, none, [some 2, none, some 3]⟩ : HopRecord).rtt →
            0 ≤ q) :=
  ⟨by decide, rtt_one_slot_per_token (("1 a 2 ms * 3 ms").toList)
    ⟨1, none, none, [some 2, none, some 3]⟩ (by decide)⟩

/-- C3: responder identity extraction is two-tier: when the host pattern
(leading non-whitespace, non-open-parenthesis token followed by a
parenthesized dotted quad) matches, the address is the parenthesized value;
only when it finds nothing is the bare dotted-quad fallback consulted, which
sets the address with no hostname; when neither matches both fields are
absent. -/
theorem identity_two_tier (t : List Char) (r : HopRecord)
    (hr : r ∈ parse_traceroute t) :
    ∃ l, l ∈ splitOnNl t ∧ ∃ ds rest, hopMatch (strip l) = some (ds, rest) ∧
      (∀ hn q, hostIpSearch rest = some (hn, q) → r.ip = some q) ∧
      (hostIpSearch rest = none →
        ∀ q, ipSearch rest = some q → r.ip = some q ∧ r.hostname = none) ∧
      (hostIpSearch rest = none → ipSearch rest = none →
        r.ip = none ∧ r.hostname = none) := by
  obtain ⟨l, hl, ds, rest, hm, hrec⟩ := mem_parse_iff.mp hr
  subst hrec
  refine ⟨l, hl, ds, rest, hm, ?_, ?_, ?_⟩
  · intro hn q h
    simp [recOf, identityOf, h]
  · intro h1 q h2
    simp [recOf, identityOf, h1, h2]
  · intro h1 h2
    simp [recOf, identityOf, h1, h2]

theorem identity_two_tier_witness :
    (⟨1, some (("5.6.7.8").toList), some (("b").toList), []⟩ : HopRecord) ∈
        parse_traceroute (("1 b (5.6.7.8)").toList) ∧
      (∃ l, l ∈ splitOnNl (("1 b (5.6.7.8)").toList) ∧
        ∃ ds rest, hopMatch (strip l) = some (ds, rest) ∧
          (∀ hn q, hostIpSearch rest = some (hn, q) →
            (⟨1, some (("5.6.7.8").toList), some (("b").toList), []⟩ : HopRecord).ip =
              some q) ∧
          (hostIpSearch rest = none →
            ∀ q, ipSearch rest = some q →
              (⟨1, some (("5.6.7.8").toList), some (("b").toList), []⟩ : HopRecord).ip =
                  some q ∧
                (⟨1, some (("5.6.7.8").toList), some (("b").toList), []⟩ :
                  HopRecord).hostname = none) ∧
          (hostIpSearch rest = none → ipSearch rest = none →
            (⟨1, some (("5.6.7.8").toList), some (("b").toList), []⟩ : HopRecord).ip =
                none ∧
              (⟨1, some (("5.6.7.8").toList), some (("b").toList), []⟩ :
                HopRecord).hostname = none)) :=
  ⟨by decide, identity_two_tier (("1 b (5.6.7.8)").toList)
    ⟨1, some (("5.6.7.8").toList), some (("b").toList), []⟩ (by decide)⟩

/-- C4: when the host-pattern match reports a leading token textually
identical to its parenthesized address, the record's hostname is absent while
the address is kept; and a present hostname is always distinct from the
address. -/
theorem hostname_normalization (t : List Char) (r : HopRecord)
    (hr : r ∈ parse_traceroute t) :
    ∃ l, l ∈ splitOnNl t ∧ ∃ ds rest, hopMatch (strip l) = some (ds, rest) ∧
      (∀ hn q, hostIpSearch rest = some (hn, q) → hn = q →
        r.hostname = none ∧ r.ip = some q) ∧
      (∀ hn, r.hostname = some hn → ∃ q, r.ip = some q ∧ hn ≠ q) := by
  obtain ⟨l, hl, ds, rest, hm, hrec⟩ := mem_parse_iff.mp hr
  subst hrec
  refine ⟨l, hl, ds, rest, hm, ?_, ?_⟩
  · intro hn q h heq
    simp [recOf, identityOf, h, heq]
  · intro hn h
    simp only [recOf, identityOf] at h ⊢
    revert h
    cases hq : hostIpSearch rest with
    | some pr =>
      obtain ⟨h2, q2⟩ := pr
      intro h
      dsimp only at h ⊢
      by_cases he : h2 = q2
      · rw [if_pos he] at h
        exact Option.noConfusion h
      · rw [if_neg he] at h
        have hhn : h2 = hn := Option.some.inj h
        refine ⟨q2, rfl, ?_⟩
        rw [hhn] at he
        exact he
    | none =>
      intro h
      dsimp only at h ⊢
      revert h
      cases hip : ipSearch rest with
      | some q2 =>
        intro h
        dsimp only at h
        exact Option.noConfusion h
      | none =>
        intro h
        dsimp only at h
        exact Option.noConfusion h

theorem hostname_normalization_witness :
    (⟨1, some (("10.0.0.1").toList), none, []⟩ : HopRecord) ∈
        parse_traceroute (("1 10.0.0.1 (10.0.0.1)").toList) ∧
      (∃ l, l ∈ splitOnNl (("1 10.0.0.1 (10.0.0.1)").toList) ∧
        ∃ ds rest, hopMatch (strip l) = some (ds, rest) ∧
          (∀ hn q, hostIpSearch rest = some (hn, q) → hn = q →
            (⟨1, some (("10.0.0.1").toList), none, []⟩ : HopRecord).hostname = none ∧
              (⟨1, some (("10.0.0.1").toList), none, []⟩ : HopRecord).ip = some q) ∧
          (∀ hn, (⟨1, some (("10.0.0.1").toList), none, []⟩ : HopRecord).hostname =
              some hn →
            ∃ q, (⟨1, some (("10.0.0.1").toList), none, []⟩ : HopRecord).ip = some q ∧
              hn ≠ q)) :=
  ⟨by decide, hostname_normalization (("1 10.0.0.1 (10.0.0.1)").toList)
    ⟨1, some (("10.0.0.1").toList), none, []⟩ (by decide)⟩

/-- C5: the parser is total and never raises: the exception-aware embedding of
the same code, in which the two Python conversions are fallible, returns a
normal (possibly empty) list for every input, equal to the parser's result;
the empty input yields the empty list. -/
theorem parse_never_fails (t : List Char) :
    parse_tracerouteE t = Except.ok (parse_traceroute t) ∧ parse_traceroute [] = [] :=
  ⟨parseLinesE_ok (splitOnNl t), by decide⟩

/-- C6: for every returned record, a present hostname implies a present
address. -/
theorem hostname_implies_ip (t : List Char) (r : HopRecord)
    (hr : r ∈ parse_traceroute t) (hh : r.hostname.isSome = true) :
    r.ip.isSome = true := by
  obtain ⟨l, hl, ds, rest, hm, hrec⟩ := mem_parse_iff.mp hr
  subst hrec
  simp only [recOf, identityOf] at hh ⊢
  revert hh
  cases hq : hostIpSearch rest with
  | some pr =>
    obtain ⟨h2, q2⟩ := pr
    intro hh
    rfl
  | none =>
    intro hh
    dsimp only at hh ⊢
    revert hh
    cases hip : ipSearch rest with
    | some q2 =>
      intro hh
      rfl
    | none =>
      intro hh
      dsimp only at hh
      exact Bool.noConfusion hh

theorem hostname_implies_ip_witness :
    (⟨1, some (("5.6.7.8").toList), some (("b").toList), []⟩ : HopRecord) ∈
        parse_traceroute (("1 b (5.6.7.8)").toList) ∧
      (⟨1, some (("5.6.7.8").toList), some (("b").toList), []⟩ :
          HopRecord).hostname.isSome = true ∧
      (⟨1, some (("5.6.7.8").toList), some (("b").toList), []⟩ :
          HopRecord).ip.isSome = true :=
  ⟨by decide, by decide, hostname_implies_ip (("1 b (5.6.7.8)").toList)
    ⟨1, some (("5.6.7.8").toList), some (("b").toList), []⟩ (by decide) (by decide)⟩

/-- C7 as stated is false on the code: the hop pattern accepts the digit 0,
so the line consisting of 0, a space and a payload yields a record whose hop
field is 0, not at least 1. -/
theorem hop_positive_counterexample :
    ¬ (∀ (t : List Char) (r : HopRecord), r ∈ parse_traceroute t → 1 ≤ r.hop) := by
  intro hcl
  have h := hcl (("0 a").toList) ⟨0, none, none, []⟩ (by decide)
  exact absurd h (by decide)

/-- C7 amended: every returned record's hop field is a non-negative integer
(the numeric value of the line's leading digit run, which can be 0). -/
theorem hop_nonneg (t : List Char) (r : HopRecord)
    (hr : r ∈ parse_traceroute t) : 0 ≤ r.hop := by
  obtain ⟨l, hl, ds, rest, hm, hrec⟩ := mem_parse_iff.mp hr
  subst hrec
  simp only [recOf]
  positivity

theorem hop_nonneg_witness :
    (⟨1, none, none, []⟩ : HopRecord) ∈ parse_traceroute (("1 a").toList) ∧
      0 ≤ (⟨1, none, none, []⟩ : HopRecord).hop :=
  ⟨by decide, hop_nonneg (("1 a").toList) ⟨1, none, none, []⟩ (by decide)⟩

/-- C8: every present address field is a string of exactly four dot-separated
nonempty digit groups, with no range validation on the groups, under both the
parenthesized and the bare-address tiers. -/
theorem ip_dotted_quad (t : List Char) (r : HopRecord) (q : List Char)
    (hr : r ∈ parse_traceroute t) (hip : r.ip = some q) :
    ∃ d1 d2 d3 d4 : List Char,
      q = d1 ++ '.' :: (d2 ++ '.' :: (d3 ++ '.' :: d4)) ∧
      (d1 ≠ [] ∧ d1.all isDigit = true) ∧ (d2 ≠ [] ∧ d2.all isDigit = true) ∧
      (d3 ≠ [] ∧ d3.all isDigit = true) ∧ (d4 ≠ [] ∧ d4.all isDigit = true) := by
  obtain ⟨l, hl, ds, rest, hm, hrec⟩ := mem_parse_iff.mp hr
  subst hrec
  simp only [recOf, identityOf] at hip
  revert hip
  cases hq : hostIpSearch rest with
  | some pr =>
    obtain ⟨h2, q2⟩ := pr
    intro hip
    dsimp only at hip
    have hqq : q2 = q := Option.some.inj hip
    obtain ⟨t2, r2, hmq⟩ := hostIpSearch_shape rest h2 q2 hq
    rw [hqq] at hmq
    exact matchQuad_shape hmq
  | none =>
    intro hip
    dsimp only at hip
    revert hip
    cases his : ipSearch rest with
    | some q2 =>
      intro hip
      dsimp only at hip
      have hqq : q2 = q := Option.some.inj hip
      obtain ⟨t2, r2, hmq⟩ := ipSearch_shape rest q2 his
      rw [hqq] at hmq
      exact matchQuad_shape hmq
    | none =>
      intro hip
      dsimp only at hip
      exact Option.noConfusion hip

theorem ip_dotted_quad_witness :
    (⟨1, some (("999.999.999.999").toList), none, []⟩ : HopRecord) ∈
        parse_traceroute (("1 999.999.999.999").toList) ∧
      (⟨1, some (("999.999.999.999").toList), none, []⟩ : HopRecord).ip =
        some (("999.999.999.999").toList) ∧
      (∃ d1 d2 d3 d4 : List Char,
        ("999.999.999.999").toList = d1 ++ '.' :: (d2 ++ '.' :: (d3 ++ '.' :: d4)) ∧
        (d1 ≠ [] ∧ d1.all isDigit = true) ∧ (d2 ≠ [] ∧ d2.all isDigit = true) ∧
        (d3 ≠ [] ∧ d3.all isDigit = true) ∧ (d4 ≠ [] ∧ d4.all isDigit = true)) :=
  ⟨by decide, by decide, ip_dotted_quad (("1 999.999.999.999").toList)
    ⟨1, some (("999.999.999.999").toList), none, []⟩ (("999.999.999.999").toList)
    (by decide) (by decide)⟩

/-- C9: when the probe tool exits with non-zero status the produced text is
still returned, as the captured standard output, a separating newline and the
captured standard error; on success the standard output is returned. -/
theorem capture_keeps_output (out err : List Char) :
    execute_traceroute (ProcResult.failure out err) = out ++ '\n' :: err ∧
      execute_traceroute (ProcResult.success out) = out :=
  ⟨rfl, rfl⟩

/-- C10: a line whose whitespace-trimmed form consists solely of digits (a
bare hop number with nothing after it) yields no record: the hop pattern
requires whitespace after the integer. -/
theorem bare_number_line_skipped (line : List Char) (hne : strip line ≠ [])
    (hdig : (strip line).all isDigit = true) :
    parseLine line = none := by
  have h1 : (strip line).dropWhile isDigit = [] := dropWhile_eq_nil_of_all hdig
  have h2 : hopMatch (strip line) = none := by
    simp only [hopMatch]
    by_cases h : (strip line).takeWhile isDigit = []
    · rw [if_pos h]
    · rw [if_neg h, h1]
      rfl
  simp only [parseLine]
  rw [if_neg hne, h2]

theorem bare_number_line_skipped_witness :
    strip (("7   ").toList) ≠ [] ∧ (strip (("7   ").toList)).all isDigit = true ∧
      parseLine (("7   ").toList) = none :=
  ⟨by decide, by decide, bare_number_line_skipped (("7   ").toList)
    (by decide) (by decide)⟩

end AmazingTrace
